import Mathlib

/-!
# Verification of the LINCS GPU constraint kernel

A shallow embedding, in exact rational arithmetic, of the LINCS constraint
kernel `lincsKernel` of `src/gromacs/mdlib/lincs_gpu_internal_sycl.cpp`,
instantiated for a single thread block (`numConstraintsThreads =
c_threadsPerBlock`, as the kernel's shared-memory indexing assumes for the
block under consideration) with the barrier-synchronised phase semantics of
the kernel: every barrier-delimited phase reads the state left by the
previous phase, and the atomic read-modify-write updates of a phase are
accumulated (their order is irrelevant in exact arithmetic).

Device arrays are modelled as total functions, `float` as `ℚ`.  The two
external numeric collaborators that the kernel consumes — `cl::sycl::rsqrt`
and the minimum-image displacement `pbcDxAiucSycl` (declared in
`gromacs/pbcutil/pbc_aiuc_sycl.h`, which is outside the visible sources;
per the specification it returns the minimum-image displacement vector of
two positions under the periodic box) — are taken as function parameters,
so every theorem below holds for arbitrary interpretations of them unless
it states a hypothesis about them.
-/

namespace Lincs

/-- Exact-arithmetic stand-in for `Float3`: a 3-vector of rationals,
indexed by the dimension (`XX = 0`, `YY = 1`, `ZZ = 2`). -/
abbrev V3 : Type := Fin 3 → ℚ

/-- Build a `V3` from its three components. -/
def v3 (a b c : ℚ) : V3 := fun i => if i = 0 then a else if i = 1 then b else c

/-- Dot product, written out componentwise exactly as in the kernel
(`rc[XX] * rc1[XX] + rc[YY] * rc1[YY] + rc[ZZ] * rc1[ZZ]`). -/
def V3.dot (a b : V3) : ℚ := a 0 * b 0 + a 1 * b 1 + a 2 * b 2

/-- `AtomPair` (from `lincs_gpu.h`): the global indices of the two
constrained atoms.  `i = -1` marks a dummy padding thread at the end of a
thread block. -/
structure AtomPair where
  i : Int
  j : Int
deriving DecidableEq

/-- All device buffers the kernel touches, both the read-only topology
buffers (accessor mode `read` in the source) and the mutable outputs
(`read_write`).  Arrays are total functions from flat indices. -/
structure KernelState where
  /-- `a_constraints`: list of constrained atom pairs, one per thread. -/
  constraints : ℕ → AtomPair
  /-- `a_constraintsTargetLengths`: equilibrium distance per constraint. -/
  constraintsTargetLengths : ℕ → ℚ
  /-- `a_coupledConstraintsCounts`: number of constraints coupled with each one. -/
  coupledConstraintsCounts : ℕ → ℕ
  /-- `a_coupledConstraintsIndices`: flat array, slot `n * numConstraintsThreads + c`
  holds the index of the `n`-th constraint coupled with constraint `c`. -/
  coupledConstraintsIndices : ℕ → ℕ
  /-- `a_massFactors`: mass factors, same flat layout as the coupled indices. -/
  massFactors : ℕ → ℚ
  /-- `a_inverseMasses`: `1/mass` per atom. -/
  inverseMasses : ℕ → ℚ
  /-- `a_x`: positions before the unconstrained update. -/
  x : ℕ → V3
  /-- `a_xp`: positions to be constrained, updated in place. -/
  xp : ℕ → V3
  /-- `a_v`: velocities, updated when `updateVelocities` is set. -/
  v : ℕ → V3
  /-- `a_matrixA`: scratch buffer for the coupling-matrix elements. -/
  matrixA : ℕ → ℚ
  /-- `a_virialScaled`: the six components `XX, XY, XZ, YY, YZ, ZZ` of the
  scaled virial tensor, accumulated when `computeVirial` is set. -/
  virialScaled : ℕ → ℚ

/-- Scalar kernel arguments plus the two external numeric collaborators and
the initial (uninitialised) contents of the shared right-hand-side buffer
`sm_rhs` (never read before being written, which the theorems below make
precise by holding for every choice of it). -/
structure LincsParams where
  /-- Total number of constraint threads; the model instantiates one thread
  block, so this is also `c_threadsPerBlock`. -/
  numConstraintsThreads : ℕ
  /-- Number of centripetal-correction iterations. -/
  numIterations : ℕ
  /-- Order of the matrix expansion. -/
  expansionOrder : ℕ
  /-- Inverse timestep, used for the velocity update. -/
  invdt : ℚ
  /-- Models `cl::sycl::rsqrt` (reciprocal square root) in exact arithmetic. -/
  rsqrt : ℚ → ℚ
  /-- Models `pbcDxAiucSycl pbcAiuc xi xj dx`: minimum-image displacement of
  two positions (external, `pbc_aiuc_sycl.h`). -/
  pbcDx : V3 → V3 → V3
  /-- Initial contents of the shared buffer `sm_rhs`. -/
  rhsInit : ℕ → ℚ

/-- The per-thread registers computed once at the top of the kernel:
target length, the two inverse masses, `rsqrt(1/mi + 1/mj)`, and the
normalised pre-step constraint direction `rc`. -/
structure ThreadData where
  targetLength : ℚ
  inverseMassi : ℚ
  inverseMassj : ℚ
  sqrtReducedMass : ℚ
  rc : V3

/-- Lines 193–226 of the kernel: dummy threads (`i == -1`) set everything
to zero; real threads gather the constraint data and compute the normalised
direction `rc = rsqrt(|dx|²) * dx` at the pre-step positions `a_x`. -/
def threadInit (p : LincsParams) (s : KernelState) (c : ℕ) : ThreadData :=
  let pair := s.constraints c
  if pair.i = -1 then
    { targetLength := 0, inverseMassi := 0, inverseMassj := 0, sqrtReducedMass := 0, rc := 0 }
  else
    let targetLength := s.constraintsTargetLengths c
    let inverseMassi := s.inverseMasses pair.i.toNat
    let inverseMassj := s.inverseMasses pair.j.toNat
    let sqrtReducedMass := p.rsqrt (inverseMassi + inverseMassj)
    let dx := p.pbcDx (s.x pair.i.toNat) (s.x pair.j.toNat)
    let rlen := p.rsqrt (V3.dot dx dx)
    { targetLength := targetLength, inverseMassi := inverseMassi,
      inverseMassj := inverseMassj, sqrtReducedMass := sqrtReducedMass, rc := rlen • dx }

/-- Lines 234–248: `a_matrixA` after the matrix-construction phase.  The
slot `index = n * numConstraintsThreads + c` with `n <
coupledConstraintsCounts c` receives `massFactor * (rc · rc1)` where `rc1`
is the shared-memory direction of the coupled constraint; every other slot
keeps its previous contents. -/
def buildMatrixA (p : LincsParams) (s : KernelState) : ℕ → ℚ :=
  fun index =>
    let N := p.numConstraintsThreads
    if index / N < s.coupledConstraintsCounts (index % N) then
      s.massFactors index *
        V3.dot (threadInit p s (index % N)).rc
          (threadInit p s (s.coupledConstraintsIndices index)).rc
    else s.matrixA index

/-- Lines 250–264: the right-hand side
`sol = sqrtReducedMass * ((rc · dx) - targetLength)` where `dx` is the
minimum-image displacement of the current `a_xp` positions.  Dummy threads
kept `xi = xj = 0` from the initial phase. -/
def solInit (p : LincsParams) (s : KernelState) (c : ℕ) : ℚ :=
  let pair := s.constraints c
  let td := threadInit p s c
  let xi := if pair.i = -1 then (0 : V3) else s.xp pair.i.toNat
  let xj := if pair.i = -1 then (0 : V3) else s.xp pair.j.toNat
  let dx := p.pbcDx xi xj
  td.sqrtReducedMass * (V3.dot td.rc dx - td.targetLength)

/-- One sparse matrix–vector convolution with the coupling matrix: row `c`
of `A` applied to the vector `w` of per-constraint values. -/
def applyMatrix (N : ℕ) (matA : ℕ → ℚ) (cCounts : ℕ → ℕ) (cIdx : ℕ → ℕ)
    (w : ℕ → ℚ) : ℕ → ℚ :=
  fun c => ∑ n ∈ Finset.range (cCounts c), matA (n * N + c) * w (cIdx (n * N + c))

/-- The block-wide state of the matrix-expansion loop: the shared buffer
`sm_rhs` and the per-thread running `sol`.  The loop addresses `sm_rhs` as
two ping-pong banks of size `numConstraintsThreads` at offsets `0` and
`numConstraintsThreads` (lines 287/291), although the source allocates the
accessor with only `range<1>(c_threadsPerBlock)` elements (lines 155–158);
the model gives the buffer unbounded extent so that the loop's dataflow is
expressible at all, and the overflow of the allocation is recorded
separately in `lincs_expansion_smRhs_out_of_bounds`. -/
structure ExpState where
  rhs : ℕ → ℚ
  sol : ℕ → ℚ

/-- The element count the source allocates for the shared buffer `sm_rhs`:
`cl::sycl::range<1>(c_threadsPerBlock)` (lines 155–158), i.e. one bank. -/
def smRhsAllocatedSize (p : LincsParams) : ℕ := p.numConstraintsThreads

/-- The `sm_rhs` index written by thread `threadInBlock` at the end of
expansion iteration `rec`:
`threadInBlock + c_threadsPerBlock * ((rec + 1) % 2)` (lines 291/375). -/
def expWriteIndex (p : LincsParams) (rec threadInBlock : ℕ) : ℕ :=
  threadInBlock + p.numConstraintsThreads * ((rec + 1) % 2)

/-- The `sm_rhs` index read in expansion iteration `rec` for the coupled
constraint `c1`: `c1 + c_threadsPerBlock * (rec % 2)` (lines 287/372). -/
def expReadIndex (p : LincsParams) (rec c1 : ℕ) : ℕ :=
  c1 + p.numConstraintsThreads * (rec % 2)

/-- The convolution `mvb` of iteration `rec` of the expansion loop
(lines 280–288): row `c` of `A` applied to the bank `rec % 2` of `sm_rhs`,
i.e. the reads `sm_rhs[c1 + c_threadsPerBlock * (rec % 2)]` — which for odd
`rec` lie beyond the allocated `range<1>(c_threadsPerBlock)` (see
`lincs_expansion_smRhs_out_of_bounds`). -/
def expMvb (N : ℕ) (matA : ℕ → ℚ) (cCounts : ℕ → ℕ) (cIdx : ℕ → ℕ)
    (rec : ℕ) (st : ExpState) (c : ℕ) : ℚ :=
  ∑ n ∈ Finset.range (cCounts c),
    matA (n * N + c) * st.rhs (cIdx (n * N + c) + N * (rec % 2))

/-- One iteration `rec` of the expansion loop (lines 276–293): every thread
convolutes the bank `rec % 2` of `sm_rhs` with its row of `A`, writes the
result into its slot of bank `(rec + 1) % 2`
(`sm_rhs[threadInBlock + c_threadsPerBlock * ((rec + 1) % 2)]`, line 291 —
for even `rec` a slot beyond the allocated `range<1>(c_threadsPerBlock)`,
see `lincs_expansion_smRhs_out_of_bounds`), and adds it to its `sol`. -/
def expStep (N : ℕ) (matA : ℕ → ℚ) (cCounts : ℕ → ℕ) (cIdx : ℕ → ℕ)
    (rec : ℕ) (st : ExpState) : ExpState :=
  { rhs := fun idx =>
      if idx / N = (rec + 1) % 2 then expMvb N matA cCounts cIdx rec st (idx % N)
      else st.rhs idx
    sol := fun c => st.sol c + expMvb N matA cCounts cIdx rec st c }

/-- The expansion loop run for `k` iterations (`rec = 0, …, k-1`). -/
def expRun (N : ℕ) (matA : ℕ → ℚ) (cCounts : ℕ → ℕ) (cIdx : ℕ → ℕ) :
    ℕ → ExpState → ExpState
  | 0, st => st
  | k + 1, st => expStep N matA cCounts cIdx k (expRun N matA cCounts cIdx k st)

/-- Line 271 / 354: every thread writes its right-hand side into its slot of
bank 0 of `sm_rhs`; the rest of the buffer keeps its previous contents. -/
def initRhs (N : ℕ) (b old : ℕ → ℚ) : ℕ → ℚ :=
  fun idx => if idx < N then b idx else old idx

/-- Lines 266–294: the first matrix-expansion phase, run for
`expansionOrder` iterations starting from the right-hand side `solInit`. -/
def lincsExpansionPhase (p : LincsParams) (s : KernelState) : ExpState :=
  expRun p.numConstraintsThreads (buildMatrixA p s) s.coupledConstraintsCounts
    s.coupledConstraintsIndices p.expansionOrder
    { rhs := initRhs p.numConstraintsThreads (solInit p s) p.rhsInit
      sol := solInit p s }

/-- The per-thread `sol` (and buffer) after the first projection: with
coupled constraints the expansion loop runs, otherwise it is skipped and
`sol` is exactly the right-hand side `solInit` (template parameter
`haveCoupledConstraints`). -/
def lincsInitialSol (haveCoupledConstraints : Bool) (p : LincsParams) (s : KernelState) :
    ExpState :=
  if haveCoupledConstraints then lincsExpansionPhase p s
  else
    { rhs := initRhs p.numConstraintsThreads (solInit p s) p.rhsInit
      sol := solInit p s }

/-- `atomicFetchAdd` on the strided position (or velocity) array: add the
vector `d` to the entry of atom `a`. -/
def addToAtom (f : ℕ → V3) (a : ℕ) (d : V3) : ℕ → V3 :=
  fun b => if b = a then f b + d else f b

/-- Lines 303–315 (and 386–395, 398–411): the six `atomicFetchAdd` calls of
one thread with mass-scaled multiplier `lam`: atom `i` receives
`-(inverseMassi * lam) * rc`, atom `j` receives `+(inverseMassj * lam) * rc`.
Dummy threads write nothing. -/
def applyPairCorrection (pair : AtomPair) (td : ThreadData) (lam : ℚ) (xp : ℕ → V3) :
    ℕ → V3 :=
  if pair.i = -1 then xp
  else
    addToAtom (addToAtom xp pair.i.toNat (-(td.inverseMassi • (lam • td.rc))))
      pair.j.toNat (td.inverseMassj • (lam • td.rc))

/-- The net vector one thread adds to each atom entry when it applies a
correction with multiplier `lam` (zero everywhere for dummy threads). -/
def threadDelta (pair : AtomPair) (td : ThreadData) (lam : ℚ) : ℕ → V3 :=
  fun a =>
    if pair.i = -1 then 0
    else
      (if a = pair.i.toNat then -(td.inverseMassi • (lam • td.rc)) else 0)
        + (if a = pair.j.toNat then td.inverseMassj • (lam • td.rc) else 0)

/-- All correction writes of the threads `0, …, n-1` of one phase,
accumulated (atomic adds commute in exact arithmetic, so a fixed order is a
faithful model). -/
def applyCorrectionsUpTo (p : LincsParams) (s : KernelState) (lam : ℕ → ℚ)
    (n : ℕ) (xp : ℕ → V3) : ℕ → V3 :=
  (List.range n).foldl
    (fun acc c => applyPairCorrection (s.constraints c) (threadInit p s c) (lam c) acc) xp

/-- All correction writes of one phase, over the whole block. -/
def applyAllCorrections (p : LincsParams) (s : KernelState) (lam : ℕ → ℚ)
    (xp : ℕ → V3) : ℕ → V3 :=
  applyCorrectionsUpTo p s lam p.numConstraintsThreads xp

/-- Lines 339–352: the centripetal right-hand side.  With
`dlen2 = 2 * targetLength² - |dx|²`, the projection is
`sqrtReducedMass * (targetLength - dlen2 * rsqrt dlen2)` when `dlen2 > 0`
and `sqrtReducedMass * targetLength` otherwise, so `rsqrt` is only applied
to strictly positive arguments here. -/
def centProj (rsq : ℚ → ℚ) (sqrtReducedMass targetLength : ℚ) (dx : V3) : ℚ :=
  let len2 := targetLength * targetLength
  let dlen2 := 2 * len2 - V3.dot dx dx
  if 0 < dlen2 then sqrtReducedMass * (targetLength - dlen2 * rsq dlen2)
  else sqrtReducedMass * targetLength

/-- The centripetal right-hand side of thread `c`, evaluated at the current
`xp`; dummy threads still hold `xi = xj = 0`. -/
def centIterProjection (p : LincsParams) (s : KernelState) (xp : ℕ → V3) (c : ℕ) : ℚ :=
  let pair := s.constraints c
  let td := threadInit p s c
  let xi := if pair.i = -1 then (0 : V3) else xp pair.i.toNat
  let xj := if pair.i = -1 then (0 : V3) else xp pair.j.toNat
  centProj p.rsqrt td.sqrtReducedMass td.targetLength (p.pbcDx xi xj)

/-- The state carried across centripetal iterations: the positions being
constrained, the accumulated mass-scaled Lagrange multipliers
(`lagrangeScaled`), and the shared `sm_rhs` buffer. -/
structure CentState where
  xp : ℕ → V3
  lagrange : ℕ → ℚ
  rhs : ℕ → ℚ

/-- The expansion state of one centripetal iteration: bank 0 of `sm_rhs`
is overwritten with the projections, then the expansion loop reruns
(skipped without coupled constraints, in which case `sol` stays the
projection). -/
def centExpState (haveCoupledConstraints : Bool) (p : LincsParams) (s : KernelState)
    (matA : ℕ → ℚ) (st : CentState) : ExpState :=
  if haveCoupledConstraints then
    expRun p.numConstraintsThreads matA s.coupledConstraintsCounts
      s.coupledConstraintsIndices p.expansionOrder
      { rhs := initRhs p.numConstraintsThreads (fun c => centIterProjection p s st.xp c) st.rhs
        sol := fun c => centIterProjection p s st.xp c }
  else
    { rhs := initRhs p.numConstraintsThreads (fun c => centIterProjection p s st.xp c) st.rhs
      sol := fun c => centIterProjection p s st.xp c }

/-- `sqrtmu_sol = sqrtReducedMass * sol` of one centripetal iteration
(line 381), the amount added to `lagrangeScaled`. -/
def centIncrement (haveCoupledConstraints : Bool) (p : LincsParams) (s : KernelState)
    (matA : ℕ → ℚ) (st : CentState) : ℕ → ℚ :=
  fun c =>
    (threadInit p s c).sqrtReducedMass * (centExpState haveCoupledConstraints p s matA st).sol c

/-- Lines 320–396, one centripetal iteration: recompute the projection from
the current positions, rerun the expansion loop (skipped without coupled
constraints), accumulate `sqrtReducedMass * sol` into `lagrangeScaled`, and
apply the position corrections. -/
def centIter (haveCoupledConstraints : Bool) (p : LincsParams) (s : KernelState)
    (matA : ℕ → ℚ) (st : CentState) : CentState :=
  { xp := applyAllCorrections p s (centIncrement haveCoupledConstraints p s matA st) st.xp
    lagrange := fun c => st.lagrange c + centIncrement haveCoupledConstraints p s matA st c
    rhs := (centExpState haveCoupledConstraints p s matA st).rhs }

/-- The centripetal loop, `numIterations` times. -/
def centLoop (haveCoupledConstraints : Bool) (p : LincsParams) (s : KernelState)
    (matA : ℕ → ℚ) : ℕ → CentState → CentState
  | 0, st => st
  | k + 1, st =>
    centIter haveCoupledConstraints p s matA
      (centLoop haveCoupledConstraints p s matA k st)

/-- The mass-scaled Lagrange multiplier after the first projection:
`lagrangeScaled = sqrtReducedMass * sol` (line 297). -/
def lagrangeInit (haveCoupledConstraints : Bool) (p : LincsParams) (s : KernelState) :
    ℕ → ℚ :=
  fun c =>
    (threadInit p s c).sqrtReducedMass * (lincsInitialSol haveCoupledConstraints p s).sol c

/-- The whole position-solving part of the kernel: the initial projection
and corrections (lines 261–315) followed by the centripetal loop
(lines 320–396).  Returns the final positions, the accumulated
`lagrangeScaled`, and the shared buffer. -/
def lincsSolveCore (haveCoupledConstraints : Bool) (p : LincsParams) (s : KernelState) :
    CentState :=
  centLoop haveCoupledConstraints p s
    (if haveCoupledConstraints then buildMatrixA p s else s.matrixA) p.numIterations
    { xp := applyAllCorrections p s (lagrangeInit haveCoupledConstraints p s) s.xp
      lagrange := lagrangeInit haveCoupledConstraints p s
      rhs := (lincsInitialSol haveCoupledConstraints p s).rhs }

/-- The accumulated mass-scaled Lagrange multiplier of each thread at the
end of the kernel (the final value of the register `lagrangeScaled`). -/
def lagrangeTotal (haveCoupledConstraints : Bool) (p : LincsParams) (s : KernelState) :
    ℕ → ℚ :=
  (lincsSolveCore haveCoupledConstraints p s).lagrange

/-- Lines 429–435: the six virial components one thread stores into shared
memory, `mult = targetLength * lagrangeScaled` times the products of the
`rc` components in the order `XX, XY, XZ, YY, YZ, ZZ`. -/
def virialComponent (t : ℕ) (td : ThreadData) (lam : ℚ) : ℚ :=
  let mult := td.targetLength * lam
  if t = 0 then mult * td.rc 0 * td.rc 0
  else if t = 1 then mult * td.rc 0 * td.rc 1
  else if t = 2 then mult * td.rc 0 * td.rc 2
  else if t = 3 then mult * td.rc 1 * td.rc 1
  else if t = 4 then mult * td.rc 1 * td.rc 2
  else if t = 5 then mult * td.rc 2 * td.rc 2
  else 0

/-- The shared buffer `sm_threadVirial` after every thread stored its six
components, laid out as `d * c_threadsPerBlock + threadInBlock`. -/
def virialSmInit (p : LincsParams) (s : KernelState) (lagrange : ℕ → ℚ) : ℕ → ℚ :=
  fun idx =>
    let bs := p.numConstraintsThreads
    if idx / bs < 6 then
      virialComponent (idx / bs) (threadInit p s (idx % bs)) (lagrange (idx % bs))
    else 0

/-- One round of the block tree reduction (lines 448–467): the threads
`tib < dividedAt` add `sm[d * bs + tib + dividedAt]` into
`sm[d * bs + tib]` for each of the six components. -/
def virialReduceStep (bs m : ℕ) (sm : ℕ → ℚ) : ℕ → ℚ :=
  fun idx => if idx < 6 * bs ∧ idx % bs < m then sm idx + sm (idx + m) else sm idx

/-- The reduction loop `for (divideBy = 2; divideBy <= blockSize; divideBy *= 2)`,
with explicit fuel (the divisor doubles every round, so `bs` rounds always
suffice). -/
def virialReduceLoop (bs : ℕ) : ℕ → ℕ → (ℕ → ℚ) → ℕ → ℚ
  | 0, _, sm => sm
  | fuel + 1, divideBy, sm =>
    if divideBy ≤ bs then
      virialReduceLoop bs fuel (2 * divideBy) (virialReduceStep bs (bs / divideBy) sm)
    else sm

/-- The full block tree reduction of `sm_threadVirial`. -/
def virialReduce (bs : ℕ) (sm : ℕ → ℚ) : ℕ → ℚ := virialReduceLoop bs bs 2 sm

/-- Lines 413–473: the virial phase.  After the tree reduction the first
six threads atomically add the block results into `a_virialScaled`. -/
def virialPhase (p : LincsParams) (s : KernelState) (lagrange : ℕ → ℚ) : ℕ → ℚ :=
  let bs := p.numConstraintsThreads
  let reduced := virialReduce bs (virialSmInit p s lagrange)
  fun t => if t < 6 ∧ t < bs then s.virialScaled t + reduced (t * bs) else s.virialScaled t

/-- The whole kernel `lincsKernel<updateVelocities, computeVirial,
haveCoupledConstraints>`: solve positions, then update velocities with
`tmp = rc * invdt * lagrangeScaled` if requested, then accumulate the
virial if requested.  Read-only buffers are returned unchanged. -/
def lincsKernel (updateVelocities computeVirial haveCoupledConstraints : Bool)
    (p : LincsParams) (s : KernelState) : KernelState :=
  let core := lincsSolveCore haveCoupledConstraints p s
  { s with
    xp := core.xp
    matrixA := if haveCoupledConstraints then buildMatrixA p s else s.matrixA
    v :=
      if updateVelocities then
        applyAllCorrections p s (fun c => p.invdt * core.lagrange c) s.v
      else s.v
    virialScaled :=
      if computeVirial then virialPhase p s core.lagrange else s.virialScaled }

/-- Specification-side definition (spec §4.3 step 4 and §8.3): the
truncated Neumann series `Σ_{m=0..k} A^m b` that the expansion loop is
claimed to compute. -/
def neumannTruncated (N : ℕ) (matA : ℕ → ℚ) (cCounts : ℕ → ℕ) (cIdx : ℕ → ℕ)
    (k : ℕ) (b : ℕ → ℚ) : ℕ → ℚ :=
  fun c => ∑ m ∈ Finset.range (k + 1), (applyMatrix N matA cCounts cIdx)^[m] b c

/-- The state of the specification-side naive single-pair solver. -/
structure PairState where
  xpi : V3
  xpj : V3
  lagrange : ℚ

/-- One centripetal pass of the naive single-pair solver: the Lagrange
multiplier is computed in closed form (`smu * projection`, no series). -/
def naivePairStep (rsq : ℚ → ℚ) (pbc : V3 → V3 → V3) (tl imi imj smu : ℚ) (rc : V3)
    (st : PairState) : PairState :=
  let lam := smu * centProj rsq smu tl (pbc st.xpi st.xpj)
  { xpi := st.xpi - imi • (lam • rc)
    xpj := st.xpj + imj • (lam • rc)
    lagrange := st.lagrange + lam }

/-- The centripetal passes of the naive single-pair solver. -/
def naivePairLoop (rsq : ℚ → ℚ) (pbc : V3 → V3 → V3) (tl imi imj smu : ℚ) (rc : V3) :
    ℕ → PairState → PairState
  | 0, st => st
  | k + 1, st =>
    naivePairStep rsq pbc tl imi imj smu rc (naivePairLoop rsq pbc tl imi imj smu rc k st)

/-- Specification-side definition (spec §8.7): the naive closed-form
single-pair solve with the same fixed budgets — the initial projection
`b = smu * ((rc · dx) - tl)` gives `λ = smu * b` directly (the series is
exact when there is no coupling), followed by `numIter` closed-form
centripetal passes. -/
def naiveSinglePairSolve (rsq : ℚ → ℚ) (pbc : V3 → V3 → V3) (tl imi imj : ℚ)
    (xi xj xpi0 xpj0 : V3) (numIter : ℕ) : PairState :=
  let dx0 := pbc xi xj
  let rc := rsq (V3.dot dx0 dx0) • dx0
  let smu := rsq (imi + imj)
  let lam0 := smu * (smu * (V3.dot rc (pbc xpi0 xpj0) - tl))
  naivePairLoop rsq pbc tl imi imj smu rc numIter
    { xpi := xpi0 - imi • (lam0 • rc), xpj := xpj0 + imj • (lam0 • rc), lagrange := lam0 }

/-- The mass-weighted sum `Σ_a m_a • f a` over the atoms of the system
(the tests divide it by the number of atoms to get the centre of mass;
constancy of the sum is the same statement). -/
def massWeightedSum (numAtoms : ℕ) (mass : ℕ → ℚ) (f : ℕ → V3) : V3 :=
  ∑ a ∈ Finset.range numAtoms, mass a • f a

/-- The full 3×3 virial contribution of one kernel run,
`Σ_c r0_c * λ_c * (d_c ⊗ d_c)` (spec §4.3 step 8). -/
def virialContributionTensor (haveCoupledConstraints : Bool) (p : LincsParams)
    (s : KernelState) : Fin 3 → Fin 3 → ℚ :=
  fun a b =>
    ∑ c ∈ Finset.range p.numConstraintsThreads,
      (threadInit p s c).targetLength * lagrangeTotal haveCoupledConstraints p s c *
        ((threadInit p s c).rc a * (threadInit p s c).rc b)

/-! ## Concrete instances used to instantiate the theorems -/

/-- A concrete single-block configuration: block size 8, two coupled
constraints, six dummy threads. -/
def exParams : LincsParams where
  numConstraintsThreads := 8
  numIterations := 2
  expansionOrder := 3
  invdt := 10
  rsqrt := fun _ => 1
  pbcDx := fun a b => a - b
  rhsInit := fun _ => 37

/-- Buffers for `exParams`: constraints (0,1) and (1,2) coupled through
atom 1, threads 2–7 dummy. -/
def exState : KernelState where
  constraints := fun c =>
    if c = 0 then { i := 0, j := 1 }
    else if c = 1 then { i := 1, j := 2 }
    else { i := -1, j := -1 }
  constraintsTargetLengths := fun c => if c = 0 then 1 else if c = 1 then 2 else 0
  coupledConstraintsCounts := fun c => if c = 0 then 1 else if c = 1 then 1 else 0
  coupledConstraintsIndices := fun idx => if idx = 0 then 1 else 0
  massFactors := fun idx => if idx = 0 then 1 / 2 else if idx = 1 then 1 / 2 else 0
  inverseMasses := fun _ => 1
  x := fun a => if a = 0 then v3 0 0 0 else if a = 1 then v3 1 0 0 else v3 1 1 0
  xp := fun a =>
    if a = 0 then v3 0 (1 / 10) 0 else if a = 1 then v3 (9 / 10) 0 0 else v3 1 1 (1 / 5)
  v := fun _ => v3 1 2 3
  matrixA := fun _ => 0
  virialScaled := fun _ => 0

/-- A concrete configuration with no coupled constraints: block size 4, two
disjoint constraints, two dummy threads. -/
def exParamsDisjoint : LincsParams where
  numConstraintsThreads := 4
  numIterations := 2
  expansionOrder := 3
  invdt := 10
  rsqrt := fun q => q + 1
  pbcDx := fun a b => a - b
  rhsInit := fun _ => 5

/-- Buffers for `exParamsDisjoint`: constraints (0,1) and (2,3) share no
atom, threads 2–3 dummy. -/
def exStateDisjoint : KernelState where
  constraints := fun c =>
    if c = 0 then { i := 0, j := 1 }
    else if c = 1 then { i := 2, j := 3 }
    else { i := -1, j := -1 }
  constraintsTargetLengths := fun c => if c = 0 then 1 else if c = 1 then 2 else 0
  coupledConstraintsCounts := fun _ => 0
  coupledConstraintsIndices := fun _ => 0
  massFactors := fun _ => 0
  inverseMasses := fun _ => 1
  x := fun a => v3 a 0 0
  xp := fun a => v3 a (1 / 2) 0
  v := fun _ => 0
  matrixA := fun _ => 0
  virialScaled := fun _ => 0

/-! ## The expansion loop computes the truncated Neumann series -/

/-- Invariant of the ping-pong expansion loop: after `k` iterations bank
`k % 2` of `sm_rhs` holds `A^k b` and `sol` holds the partial Neumann sum,
for every initial content `rhs0` of the rest of the shared buffer, provided
all coupled-constraint indices stay inside the block (which the topology
builder guarantees, spec §4.1). -/
theorem expRun_bank_sol (N : ℕ) (matA : ℕ → ℚ) (cCounts : ℕ → ℕ) (cIdx : ℕ → ℕ)
    (hidx : ∀ c, c < N → ∀ n, n < cCounts c → cIdx (n * N + c) < N)
    (b rhs0 : ℕ → ℚ) (k : ℕ) :
    (∀ c, c < N →
      (expRun N matA cCounts cIdx k { rhs := initRhs N b rhs0, sol := b }).rhs
          (c + N * (k % 2))
        = (applyMatrix N matA cCounts cIdx)^[k] b c)
    ∧ (∀ c, c < N →
      (expRun N matA cCounts cIdx k { rhs := initRhs N b rhs0, sol := b }).sol c
        = ∑ m ∈ Finset.range (k + 1), (applyMatrix N matA cCounts cIdx)^[m] b c) := by
  induction k with
  | zero =>
    constructor
    · intro c hc
      simp [expRun, initRhs, hc]
    · intro c hc
      simp [expRun]
  | succ k ih =>
    have hmvb : ∀ c, c < N →
        expMvb N matA cCounts cIdx k
            (expRun N matA cCounts cIdx k { rhs := initRhs N b rhs0, sol := b }) c
          = (applyMatrix N matA cCounts cIdx)^[k + 1] b c := by
      intro c hc
      rw [Function.iterate_succ_apply']
      set w := (applyMatrix N matA cCounts cIdx)^[k] b with hw
      rw [expMvb, applyMatrix]
      refine Finset.sum_congr rfl ?_
      intro n hn
      rw [ih.1 (cIdx (n * N + c)) (hidx c hc n (Finset.mem_range.mp hn))]
    constructor
    · intro c hc
      have hN : 0 < N := lt_of_le_of_lt (Nat.zero_le c) hc
      have hdiv : (c + N * ((k + 1) % 2)) / N = (k + 1) % 2 := by
        rw [Nat.add_mul_div_left _ _ hN, Nat.div_eq_of_lt hc, Nat.zero_add]
      have hmod : (c + N * ((k + 1) % 2)) % N = c := by
        rw [Nat.add_mul_mod_self_left, Nat.mod_eq_of_lt hc]
      have hstep : (expRun N matA cCounts cIdx (k + 1)
            { rhs := initRhs N b rhs0, sol := b }).rhs (c + N * ((k + 1) % 2))
          = if (c + N * ((k + 1) % 2)) / N = (k + 1) % 2 then
              expMvb N matA cCounts cIdx k
                (expRun N matA cCounts cIdx k { rhs := initRhs N b rhs0, sol := b })
                ((c + N * ((k + 1) % 2)) % N)
            else
              (expRun N matA cCounts cIdx k { rhs := initRhs N b rhs0, sol := b }).rhs
                (c + N * ((k + 1) % 2)) := rfl
      rw [hstep, hdiv, hmod, if_pos rfl, hmvb c hc]
    · intro c hc
      have hstep : (expRun N matA cCounts cIdx (k + 1)
            { rhs := initRhs N b rhs0, sol := b }).sol c
          = (expRun N matA cCounts cIdx k { rhs := initRhs N b rhs0, sol := b }).sol c
            + expMvb N matA cCounts cIdx k
                (expRun N matA cCounts cIdx k { rhs := initRhs N b rhs0, sol := b }) c := rfl
      rw [hstep, ih.2 c hc, hmvb c hc, Finset.sum_range_succ _ (k + 1)]

/-- The intended semantics of the matrix-expansion loop: if `sm_rhs` really
backed the two ping-pong banks the loop addresses (it does not — the
accessor is allocated one bank short, see
`lincs_expansion_smRhs_out_of_bounds`), the value `sol` held after the
`expansionOrder` iterations would equal the truncated Neumann series
`Σ_{m=0..expansionOrder} A^m b` applied to the right-hand side
`b = sqrtReducedMass * ((rc · (xp_i - xp_j)) - r0)` (`solInit`), in exact
arithmetic, provided every coupled-constraint index stays inside the
block.  This documents the intent of the claim; the allocation bug keeps
it from being a property of the program as written. -/
theorem lincs_expansion_truncated_neumann (p : LincsParams) (s : KernelState) (c : ℕ)
    (hc : c < p.numConstraintsThreads)
    (hidx : ∀ c', c' < p.numConstraintsThreads →
      ∀ n, n < s.coupledConstraintsCounts c' →
        s.coupledConstraintsIndices (n * p.numConstraintsThreads + c')
          < p.numConstraintsThreads) :
    (lincsExpansionPhase p s).sol c
      = neumannTruncated p.numConstraintsThreads (buildMatrixA p s)
          s.coupledConstraintsCounts s.coupledConstraintsIndices p.expansionOrder
          (solInit p s) c := by
  exact (expRun_bank_sol p.numConstraintsThreads (buildMatrixA p s)
    s.coupledConstraintsCounts s.coupledConstraintsIndices hidx
    (solInit p s) p.rhsInit p.expansionOrder).2 c hc

/-- Instance of `lincs_expansion_truncated_neumann` at the concrete
coupled configuration. -/
theorem lincs_expansion_truncated_neumann_witness :
    (0 : ℕ) < exParams.numConstraintsThreads
    ∧ (lincsExpansionPhase exParams exState).sol 0
        = neumannTruncated exParams.numConstraintsThreads (buildMatrixA exParams exState)
            exState.coupledConstraintsCounts exState.coupledConstraintsIndices
            exParams.expansionOrder (solInit exParams exState) 0 :=
  ⟨by decide,
    lincs_expansion_truncated_neumann exParams exState 0 (by decide) (by decide)⟩

/-- C3 (code bug): the matrix-expansion loop's ping-pong addressing
overflows the `sm_rhs` allocation.  The source allocates the accessor with
`range<1>(c_threadsPerBlock)` elements (lines 155–158), yet in every
even-numbered iteration (`rec = 2k`, run whenever `expansionOrder ≥ 1`)
each thread writes slot `threadInBlock + c_threadsPerBlock`, at or beyond
the allocated size, and in every odd-numbered iteration (`rec = 2k + 1`,
first reached when `expansionOrder ≥ 2`) it reads such slots back — so the
two-bank recurrence `s_{k+1} = b + A·s_k` that the claim (and
`lincs_expansion_truncated_neumann`, which formalises the intended
dataflow) describes is computed through out-of-bounds shared-memory
accesses the buffer does not back.  Concretely, at the `exParams` block
(`c_threadsPerBlock = 8`, `expansionOrder = 3`), iteration 0 of thread 0
writes slot 8 of the 8-element buffer. -/
theorem lincs_expansion_smRhs_out_of_bounds (p : LincsParams) (k tib c1 : ℕ) :
    smRhsAllocatedSize p ≤ expWriteIndex p (2 * k) tib
    ∧ smRhsAllocatedSize p ≤ expReadIndex p (2 * k + 1) c1
    ∧ expWriteIndex exParams 0 0 = 8
    ∧ smRhsAllocatedSize exParams = 8 := by
  refine ⟨?_, ?_, by decide, by decide⟩
  · unfold smRhsAllocatedSize expWriteIndex
    have h2 : (2 * k + 1) % 2 = 1 := by omega
    rw [h2, Nat.mul_one]
    omega
  · unfold smRhsAllocatedSize expReadIndex
    have h2 : (2 * k + 1) % 2 = 1 := by omega
    rw [h2, Nat.mul_one]
    omega

/-! ## Pointwise form of the correction writes -/

/-- The writes of one thread add exactly `threadDelta` to every atom. -/
theorem applyPairCorrection_apply (pair : AtomPair) (td : ThreadData) (lam : ℚ)
    (xp : ℕ → V3) (a : ℕ) :
    applyPairCorrection pair td lam xp a = xp a + threadDelta pair td lam a := by
  unfold applyPairCorrection threadDelta addToAtom
  by_cases hd : pair.i = -1
  · simp [hd]
  · simp only [hd, if_false]
    split_ifs <;> abel

/-- The writes of the threads `0, …, n-1` add the sum of their deltas. -/
theorem applyCorrectionsUpTo_apply (p : LincsParams) (s : KernelState) (lam : ℕ → ℚ)
    (n : ℕ) (xp : ℕ → V3) (a : ℕ) :
    applyCorrectionsUpTo p s lam n xp a
      = xp a + ∑ c ∈ Finset.range n,
          threadDelta (s.constraints c) (threadInit p s c) (lam c) a := by
  induction n with
  | zero => simp [applyCorrectionsUpTo]
  | succ n ih =>
    have hstep : applyCorrectionsUpTo p s lam (n + 1) xp
        = applyPairCorrection (s.constraints n) (threadInit p s n) (lam n)
            (applyCorrectionsUpTo p s lam n xp) := by
      unfold applyCorrectionsUpTo
      rw [List.range_succ, List.foldl_append, List.foldl_cons, List.foldl_nil]
    rw [hstep, applyPairCorrection_apply, ih, Finset.sum_range_succ, add_assoc]

/-- The whole correction phase adds the sum of all thread deltas. -/
theorem applyAllCorrections_apply (p : LincsParams) (s : KernelState) (lam : ℕ → ℚ)
    (xp : ℕ → V3) (a : ℕ) :
    applyAllCorrections p s lam xp a
      = xp a + ∑ c ∈ Finset.range p.numConstraintsThreads,
          threadDelta (s.constraints c) (threadInit p s c) (lam c) a :=
  applyCorrectionsUpTo_apply p s lam p.numConstraintsThreads xp a

/-- `threadDelta` vanishes at multiplier `0`. -/
theorem threadDelta_zero (pair : AtomPair) (td : ThreadData) (a : ℕ) :
    threadDelta pair td 0 a = 0 := by
  unfold threadDelta
  split_ifs <;> simp

/-- `threadDelta` is additive in the multiplier. -/
theorem threadDelta_add (pair : AtomPair) (td : ThreadData) (u w : ℚ) (a : ℕ) :
    threadDelta pair td (u + w) a
      = threadDelta pair td u a + threadDelta pair td w a := by
  unfold threadDelta
  split_ifs <;> simp [add_smul, smul_add] <;> abel

/-- `threadDelta` commutes with scaling of the multiplier. -/
theorem threadDelta_smul (pair : AtomPair) (td : ThreadData) (q w : ℚ) (a : ℕ) :
    threadDelta pair td (q * w) a = q • threadDelta pair td w a := by
  unfold threadDelta
  split_ifs <;> simp [smul_smul, mul_comm, mul_assoc, mul_left_comm]

/-! ## The accumulated multiplier accounts for all position corrections -/

/-- Along the centripetal loop, the positions equal the loop's starting
positions plus each thread's delta at the multiplier accumulated since the
start of the loop. -/
theorem centLoop_xp (hcb : Bool) (p : LincsParams) (s : KernelState) (matA : ℕ → ℚ)
    (k : ℕ) (st : CentState) (a : ℕ) :
    (centLoop hcb p s matA k st).xp a
      = st.xp a + ∑ c ∈ Finset.range p.numConstraintsThreads,
          threadDelta (s.constraints c) (threadInit p s c)
            ((centLoop hcb p s matA k st).lagrange c - st.lagrange c) a := by
  induction k with
  | zero => simp [centLoop, threadDelta_zero]
  | succ k ih =>
    have hxp : (centLoop hcb p s matA (k + 1) st).xp a
        = applyAllCorrections p s
            (centIncrement hcb p s matA (centLoop hcb p s matA k st))
            (centLoop hcb p s matA k st).xp a := rfl
    have hlag : ∀ c, (centLoop hcb p s matA (k + 1) st).lagrange c
        = (centLoop hcb p s matA k st).lagrange c
          + centIncrement hcb p s matA (centLoop hcb p s matA k st) c := fun _ => rfl
    rw [hxp, applyAllCorrections_apply, ih, add_assoc, ← Finset.sum_add_distrib]
    congr 1
    refine Finset.sum_congr rfl ?_
    intro c _
    rw [hlag c, ← threadDelta_add]
    ring_nf

/-- C5: the total position correction applied by the whole kernel is, for
every atom entry, the sum over threads of `-lagrangeTotal * invMass_i * rc`
at atom `i` and `+lagrangeTotal * invMass_j * rc` at atom `j`
(`threadDelta` at the accumulated `lagrangeScaled`); and when the velocity
update is requested the velocity change is exactly `invdt` times that total
position correction. -/
theorem lincs_total_correction_velocity (uv cv hcb : Bool) (p : LincsParams)
    (s : KernelState) (a : ℕ) :
    ((lincsKernel uv cv hcb p s).xp a
      = s.xp a + ∑ c ∈ Finset.range p.numConstraintsThreads,
          threadDelta (s.constraints c) (threadInit p s c) (lagrangeTotal hcb p s c) a)
    ∧ (uv = true →
      (lincsKernel uv cv hcb p s).v a
        = s.v a + p.invdt • ∑ c ∈ Finset.range p.numConstraintsThreads,
            threadDelta (s.constraints c) (threadInit p s c) (lagrangeTotal hcb p s c) a) := by
  have hxp : (lincsKernel uv cv hcb p s).xp a = (lincsSolveCore hcb p s).xp a := rfl
  have hcore : (lincsSolveCore hcb p s).xp a
      = applyAllCorrections p s (lagrangeInit hcb p s) s.xp a
        + ∑ c ∈ Finset.range p.numConstraintsThreads,
            threadDelta (s.constraints c) (threadInit p s c)
              (lagrangeTotal hcb p s c - lagrangeInit hcb p s c) a :=
    centLoop_xp hcb p s (if hcb then buildMatrixA p s else s.matrixA) p.numIterations
      { xp := applyAllCorrections p s (lagrangeInit hcb p s) s.xp
        lagrange := lagrangeInit hcb p s
        rhs := (lincsInitialSol hcb p s).rhs } a
  have hmain : (lincsKernel uv cv hcb p s).xp a
      = s.xp a + ∑ c ∈ Finset.range p.numConstraintsThreads,
          threadDelta (s.constraints c) (threadInit p s c) (lagrangeTotal hcb p s c) a := by
    rw [hxp, hcore, applyAllCorrections_apply, add_assoc, ← Finset.sum_add_distrib]
    congr 1
    refine Finset.sum_congr rfl ?_
    intro c _
    rw [← threadDelta_add]
    ring_nf
  refine ⟨hmain, ?_⟩
  intro huv
  subst huv
  have hv : (lincsKernel true cv hcb p s).v a
      = applyAllCorrections p s (fun c => p.invdt * lagrangeTotal hcb p s c) s.v a := rfl
  rw [hv, applyAllCorrections_apply, Finset.smul_sum]
  congr 1
  refine Finset.sum_congr rfl ?_
  intro c _
  rw [threadDelta_smul]

/-- Witness for C5 at the concrete coupled instance with velocity update. -/
theorem lincs_total_correction_velocity_witness :
    (true = true)
    ∧ ((lincsKernel true true true exParams exState).xp 1
        = exState.xp 1 + ∑ c ∈ Finset.range exParams.numConstraintsThreads,
            threadDelta (exState.constraints c) (threadInit exParams exState c)
              (lagrangeTotal true exParams exState c) 1) :=
  ⟨rfl, (lincs_total_correction_velocity true true true exParams exState 1).1⟩

/-! ## Centre-of-mass invariance -/

/-- The mass-weighted sum of one thread's correction writes vanishes: both
endpoints receive the same vector scaled by `-invMass_i` resp. `+invMass_j`,
and mass times inverse mass is one. -/
theorem mws_threadDelta (p : LincsParams) (s : KernelState) (numAtoms : ℕ)
    (mass : ℕ → ℚ)
    (hmass : ∀ a, a < numAtoms → mass a * s.inverseMasses a = 1)
    (c : ℕ) (lam : ℚ)
    (hvalid : (s.constraints c).i ≠ -1 →
      (s.constraints c).i.toNat < numAtoms ∧ (s.constraints c).j.toNat < numAtoms) :
    ∑ a ∈ Finset.range numAtoms,
        mass a • threadDelta (s.constraints c) (threadInit p s c) lam a = 0 := by
  by_cases hd : (s.constraints c).i = -1
  · simp [threadDelta, hd]
  · obtain ⟨hi, hj⟩ := hvalid hd
    have him : (threadInit p s c).inverseMassi
        = s.inverseMasses (s.constraints c).i.toNat := by
      simp [threadInit, hd]
    have hjm : (threadInit p s c).inverseMassj
        = s.inverseMasses (s.constraints c).j.toNat := by
      simp [threadInit, hd]
    have hsum : ∀ a ∈ Finset.range numAtoms,
        mass a • threadDelta (s.constraints c) (threadInit p s c) lam a
          = (if a = (s.constraints c).i.toNat then
              -(mass a • ((threadInit p s c).inverseMassi
                  • (lam • (threadInit p s c).rc))) else 0)
            + (if a = (s.constraints c).j.toNat then
              mass a • ((threadInit p s c).inverseMassj
                  • (lam • (threadInit p s c).rc)) else 0) := by
      intro a _
      unfold threadDelta
      rw [if_neg hd]
      split_ifs <;> simp
    have key : ∀ (m q : ℚ) (w : V3), m * q = 1 → m • q • w = w := by
      intro m q w h
      rw [smul_smul, h, one_smul]
    rw [Finset.sum_congr rfl hsum, Finset.sum_add_distrib,
        Finset.sum_ite_eq' (Finset.range numAtoms),
        Finset.sum_ite_eq' (Finset.range numAtoms),
        if_pos (Finset.mem_range.mpr hi), if_pos (Finset.mem_range.mpr hj), him, hjm,
        key _ _ _ (hmass _ hi), key _ _ _ (hmass _ hj), neg_add_cancel]

/-- One whole correction phase preserves the mass-weighted sum, for every
vector of multipliers. -/
theorem mws_applyAllCorrections (p : LincsParams) (s : KernelState) (numAtoms : ℕ)
    (mass : ℕ → ℚ)
    (hmass : ∀ a, a < numAtoms → mass a * s.inverseMasses a = 1)
    (hvalid : ∀ c, c < p.numConstraintsThreads → (s.constraints c).i ≠ -1 →
      (s.constraints c).i.toNat < numAtoms ∧ (s.constraints c).j.toNat < numAtoms)
    (lam : ℕ → ℚ) (xp : ℕ → V3) :
    massWeightedSum numAtoms mass (applyAllCorrections p s lam xp)
      = massWeightedSum numAtoms mass xp := by
  unfold massWeightedSum
  have h1 : ∀ a ∈ Finset.range numAtoms,
      mass a • applyAllCorrections p s lam xp a
        = mass a • xp a + ∑ c ∈ Finset.range p.numConstraintsThreads,
            mass a • threadDelta (s.constraints c) (threadInit p s c) (lam c) a := by
    intro a _
    rw [applyAllCorrections_apply, smul_add, Finset.smul_sum]
  rw [Finset.sum_congr rfl h1, Finset.sum_add_distrib, Finset.sum_comm]
  have h2 : ∀ c ∈ Finset.range p.numConstraintsThreads,
      ∑ a ∈ Finset.range numAtoms,
        mass a • threadDelta (s.constraints c) (threadInit p s c) (lam c) a = 0 := by
    intro c hc
    exact mws_threadDelta p s numAtoms mass hmass c (lam c)
      (hvalid c (Finset.mem_range.mp hc))
  rw [Finset.sum_congr rfl h2, Finset.sum_const_zero, add_zero]

/-- C2: constraint solving leaves the total mass-weighted centre-of-mass
position and velocity of a closed constrained subsystem unchanged — in
exact arithmetic, exactly — because every correction the kernel applies
adds `-lam * invMass_i * d` to atom `i` and `+lam * invMass_j * d` to atom
`j` along the same direction `d`. -/
theorem lincs_com_invariant (uv cv hcb : Bool) (p : LincsParams) (s : KernelState)
    (numAtoms : ℕ) (mass : ℕ → ℚ)
    (hmass : ∀ a, a < numAtoms → mass a * s.inverseMasses a = 1)
    (hvalid : ∀ c, c < p.numConstraintsThreads → (s.constraints c).i ≠ -1 →
      (s.constraints c).i.toNat < numAtoms ∧ (s.constraints c).j.toNat < numAtoms) :
    massWeightedSum numAtoms mass (lincsKernel uv cv hcb p s).xp
      = massWeightedSum numAtoms mass s.xp
    ∧ massWeightedSum numAtoms mass (lincsKernel uv cv hcb p s).v
      = massWeightedSum numAtoms mass s.v := by
  have hloop : ∀ (matA : ℕ → ℚ) (k : ℕ) (st : CentState),
      massWeightedSum numAtoms mass (centLoop hcb p s matA k st).xp
        = massWeightedSum numAtoms mass st.xp := by
    intro matA k st
    induction k with
    | zero => rfl
    | succ k ih =>
      have hstep : (centLoop hcb p s matA (k + 1) st).xp
          = applyAllCorrections p s
              (centIncrement hcb p s matA (centLoop hcb p s matA k st))
              (centLoop hcb p s matA k st).xp := rfl
      rw [hstep, mws_applyAllCorrections p s numAtoms mass hmass hvalid, ih]
  constructor
  · calc massWeightedSum numAtoms mass (lincsKernel uv cv hcb p s).xp
        = massWeightedSum numAtoms mass
            (applyAllCorrections p s (lagrangeInit hcb p s) s.xp) :=
          hloop (if hcb then buildMatrixA p s else s.matrixA) p.numIterations
            { xp := applyAllCorrections p s (lagrangeInit hcb p s) s.xp
              lagrange := lagrangeInit hcb p s
              rhs := (lincsInitialSol hcb p s).rhs }
      _ = massWeightedSum numAtoms mass s.xp :=
          mws_applyAllCorrections p s numAtoms mass hmass hvalid _ _
  · cases uv with
    | false => rfl
    | true =>
      have hv : (lincsKernel true cv hcb p s).v
          = applyAllCorrections p s
              (fun c => p.invdt * lagrangeTotal hcb p s c) s.v := rfl
      rw [hv, mws_applyAllCorrections p s numAtoms mass hmass hvalid]

/-- Witness for C2 at the concrete coupled instance (three atoms of unit
mass, velocity update and virial both on). -/
theorem lincs_com_invariant_witness :
    (∀ a, a < 3 → (fun _ => (1 : ℚ)) a * exState.inverseMasses a = 1)
    ∧ massWeightedSum 3 (fun _ => 1) (lincsKernel true true true exParams exState).xp
        = massWeightedSum 3 (fun _ => 1) exState.xp :=
  ⟨by intro a _; simp [exState],
    (lincs_com_invariant true true true exParams exState 3 (fun _ => 1)
      (by intro a _; simp [exState]) (by decide)).1⟩

/-! ## The centripetal projection and its guard on rsqrt -/

/-- C6: in every centripetal iteration the corrected deviation is
`dlen2 = 2 * r0² - |dx|²` and the projection right-hand side is
`sqrtReducedMass * (r0 - dlen2 * rsqrt dlen2)` when `dlen2 > 0` and
`sqrtReducedMass * r0` otherwise; consequently the result never depends on
the values of the reciprocal square root at non-positive arguments — the
embedded computation is total and `rsqrt` is only evaluated on strictly
positive inputs, for all inputs including `dlen2 ≤ 0`. -/
theorem lincs_centripetal_rsqrt_guard (rsq1 rsq2 : ℚ → ℚ) (smu tl : ℚ) (dx : V3)
    (hpos : ∀ q, 0 < q → rsq1 q = rsq2 q) :
    centProj rsq1 smu tl dx = centProj rsq2 smu tl dx
    ∧ (0 < 2 * (tl * tl) - V3.dot dx dx →
        centProj rsq1 smu tl dx
          = smu * (tl - (2 * (tl * tl) - V3.dot dx dx)
              * rsq1 (2 * (tl * tl) - V3.dot dx dx)))
    ∧ (2 * (tl * tl) - V3.dot dx dx ≤ 0 → centProj rsq1 smu tl dx = smu * tl) := by
  simp only [centProj]
  refine ⟨?_, ?_, ?_⟩
  · by_cases h : 0 < 2 * (tl * tl) - V3.dot dx dx
    · rw [if_pos h, if_pos h, hpos _ h]
    · rw [if_neg h, if_neg h]
  · intro h
    rw [if_pos h]
  · intro h
    rw [if_neg (not_lt.mpr h)]

/-- Witness for C6: two reciprocal square roots agreeing on positives give
the same projection, at an input whose `dlen2` is negative. -/
theorem lincs_centripetal_rsqrt_guard_witness :
    (∀ q : ℚ, 0 < q → (fun q : ℚ => q) q = (fun q : ℚ => if 0 < q then q else 99) q)
    ∧ centProj (fun q : ℚ => q) 1 0 (v3 1 0 0)
        = centProj (fun q : ℚ => if 0 < q then q else 99) 1 0 (v3 1 0 0) :=
  ⟨fun q hq => by simp [hq],
    (lincs_centripetal_rsqrt_guard (fun q => q) (fun q => if 0 < q then q else 99) 1 0
      (v3 1 0 0) (fun q hq => by simp [hq])).1⟩

/-! ## Dummy threads are no-ops -/

/-- A thread whose `sqrtReducedMass` is zero never accumulates any
Lagrange multiplier along the centripetal loop. -/
theorem centLoop_lagrange_smu_zero (hcb : Bool) (p : LincsParams) (s : KernelState)
    (matA : ℕ → ℚ) (c : ℕ) (hsmu : (threadInit p s c).sqrtReducedMass = 0)
    (k : ℕ) (st : CentState) :
    (centLoop hcb p s matA k st).lagrange c = st.lagrange c := by
  induction k with
  | zero => rfl
  | succ k ih =>
    have hstep : (centLoop hcb p s matA (k + 1) st).lagrange c
        = (centLoop hcb p s matA k st).lagrange c
          + centIncrement hcb p s matA (centLoop hcb p s matA k st) c := rfl
    rw [hstep, ih]
    unfold centIncrement
    rw [hsmu, zero_mul, add_zero]

/-- C9: a dummy padding thread (`i = -1`) is a no-op with respect to all
outputs: its target length, inverse masses, reduced mass and direction are
all zero, its accumulated Lagrange multiplier stays zero, its correction
application to any position or velocity array is the identity (it performs
no write), its per-atom delta is zero, and all its virial components are
exactly zero — so dropping dummy threads changes no output array element. -/
theorem lincs_dummy_thread_noop (hcb : Bool) (p : LincsParams) (s : KernelState) (c : ℕ)
    (hdummy : (s.constraints c).i = -1) :
    threadInit p s c
        = { targetLength := 0, inverseMassi := 0, inverseMassj := 0,
            sqrtReducedMass := 0, rc := 0 }
    ∧ lagrangeTotal hcb p s c = 0
    ∧ (∀ (xp : ℕ → V3) (lam : ℚ),
        applyPairCorrection (s.constraints c) (threadInit p s c) lam xp = xp)
    ∧ (∀ (lam : ℚ) (a : ℕ), threadDelta (s.constraints c) (threadInit p s c) lam a = 0)
    ∧ (∀ t, virialComponent t (threadInit p s c) (lagrangeTotal hcb p s c) = 0) := by
  have htd : threadInit p s c
      = { targetLength := 0, inverseMassi := 0, inverseMassj := 0,
          sqrtReducedMass := 0, rc := 0 } := by
    simp [threadInit, hdummy]
  have hsmu : (threadInit p s c).sqrtReducedMass = 0 := by rw [htd]
  have hlag : lagrangeTotal hcb p s c = 0 := by
    have h1 : lagrangeTotal hcb p s c
        = (centLoop hcb p s (if hcb then buildMatrixA p s else s.matrixA)
            p.numIterations
            { xp := applyAllCorrections p s (lagrangeInit hcb p s) s.xp
              lagrange := lagrangeInit hcb p s
              rhs := (lincsInitialSol hcb p s).rhs }).lagrange c := rfl
    rw [h1, centLoop_lagrange_smu_zero hcb p s _ c hsmu]
    show lagrangeInit hcb p s c = 0
    unfold lagrangeInit
    rw [hsmu, zero_mul]
  refine ⟨htd, hlag, ?_, ?_, ?_⟩
  · intro xp lam
    simp [applyPairCorrection, hdummy]
  · intro lam a
    simp [threadDelta, hdummy]
  · intro t
    rw [htd]
    unfold virialComponent
    split_ifs <;> simp

/-- Witness for C9 at dummy thread 2 of the concrete coupled instance. -/
theorem lincs_dummy_thread_noop_witness :
    (exState.constraints 2).i = -1
    ∧ lagrangeTotal true exParams exState 2 = 0 :=
  ⟨by decide, (lincs_dummy_thread_noop true exParams exState 2 (by decide)).2.1⟩

/-! ## Frame conditions of a kernel run -/

/-- C10: a kernel run leaves the pre-step positions, the constraint list,
the target lengths, the coupled-constraint counts and indices, the mass
factors and the inverse masses unchanged; the coupling-matrix scratch is
untouched when there are no coupled constraints, the velocities are
untouched unless the velocity update is requested, and the virial buffer is
untouched unless the virial is requested. -/
theorem lincs_kernel_frame (uv cv hcb : Bool) (p : LincsParams) (s : KernelState) :
    (lincsKernel uv cv hcb p s).x = s.x
    ∧ (lincsKernel uv cv hcb p s).constraints = s.constraints
    ∧ (lincsKernel uv cv hcb p s).constraintsTargetLengths = s.constraintsTargetLengths
    ∧ (lincsKernel uv cv hcb p s).coupledConstraintsCounts = s.coupledConstraintsCounts
    ∧ (lincsKernel uv cv hcb p s).coupledConstraintsIndices = s.coupledConstraintsIndices
    ∧ (lincsKernel uv cv hcb p s).massFactors = s.massFactors
    ∧ (lincsKernel uv cv hcb p s).inverseMasses = s.inverseMasses
    ∧ (hcb = false → (lincsKernel uv cv hcb p s).matrixA = s.matrixA)
    ∧ (uv = false → (lincsKernel uv cv hcb p s).v = s.v)
    ∧ (cv = false → (lincsKernel uv cv hcb p s).virialScaled = s.virialScaled) := by
  refine ⟨rfl, rfl, rfl, rfl, rfl, rfl, rfl, ?_, ?_, ?_⟩
  · intro h
    subst h
    rfl
  · intro h
    subst h
    rfl
  · intro h
    subst h
    rfl

/-- Witness for C10 at the disjoint instance with all feature flags off. -/
theorem lincs_kernel_frame_witness :
    (false = false)
    ∧ (lincsKernel false false false exParamsDisjoint exStateDisjoint).x
        = exStateDisjoint.x
    ∧ (lincsKernel false false false exParamsDisjoint exStateDisjoint).v
        = exStateDisjoint.v :=
  ⟨rfl, (lincs_kernel_frame false false false exParamsDisjoint exStateDisjoint).1,
    (lincs_kernel_frame false false false exParamsDisjoint
      exStateDisjoint).2.2.2.2.2.2.2.2.1 rfl⟩

/-! ## The virial tree reduction sums the block -/

/-- One reduction round halves the range while preserving the partial sums
of each component band. -/
theorem virialReduceStep_sum (bs m : ℕ) (sm : ℕ → ℚ) (d : ℕ) (hd : d < 6)
    (h2m : 2 * m ≤ bs) :
    ∑ t ∈ Finset.range m, virialReduceStep bs m sm (d * bs + t)
      = ∑ t ∈ Finset.range (2 * m), sm (d * bs + t) := by
  have hval : ∀ t ∈ Finset.range m,
      virialReduceStep bs m sm (d * bs + t) = sm (d * bs + t) + sm (d * bs + t + m) := by
    intro t ht
    have ht' : t < m := Finset.mem_range.mp ht
    have htbs : t < bs := by omega
    have hmod : (d * bs + t) % bs = t := by
      rw [Nat.mul_comm d bs, Nat.mul_add_mod, Nat.mod_eq_of_lt htbs]
    have hlt : d * bs + t < 6 * bs := by
      have h1 : d * bs + t < (d + 1) * bs := by
        rw [Nat.succ_mul]
        omega
      have h2 : (d + 1) * bs ≤ 6 * bs := Nat.mul_le_mul_right bs (by omega)
      omega
    unfold virialReduceStep
    rw [if_pos ⟨hlt, by rw [hmod]; exact ht'⟩]
  rw [Finset.sum_congr rfl hval, Finset.sum_add_distrib]
  have hshift : ∑ t ∈ Finset.range m, sm (d * bs + t + m)
      = ∑ t ∈ Finset.Ico m (2 * m), sm (d * bs + t) := by
    rw [Finset.sum_Ico_eq_sum_range]
    have hmm : 2 * m - m = m := by omega
    rw [hmm]
    refine Finset.sum_congr rfl ?_
    intro t _
    congr 1
    omega
  rw [hshift, Finset.range_eq_Ico]
  exact Finset.sum_Ico_consecutive _ (Nat.zero_le m) (by omega)

/-- The reduction loop, entered with `divideBy = 2^(K-j+1)`, sums the last
`2^j` rounds' worth of entries of each band. -/
theorem virialReduceLoop_sum (K : ℕ) (d : ℕ) (hd : d < 6) :
    ∀ j, j ≤ K → ∀ fuel, j ≤ fuel → ∀ sm : ℕ → ℚ,
      virialReduceLoop (2 ^ K) fuel (2 ^ (K - j + 1)) sm (d * 2 ^ K)
        = ∑ t ∈ Finset.range (2 ^ j), sm (d * 2 ^ K + t) := by
  intro j
  induction j with
  | zero =>
    intro _ fuel _ sm
    have hgt : ¬ (2 ^ (K + 1) ≤ 2 ^ K) :=
      not_le.mpr (Nat.pow_lt_pow_succ one_lt_two)
    cases fuel with
    | zero => simp [virialReduceLoop]
    | succ fuel => simp [virialReduceLoop, Nat.sub_zero, hgt]
  | succ j ih =>
    intro hjK fuel hfuel sm
    cases fuel with
    | zero => omega
    | succ fuel =>
      have hexp : K - (j + 1) + 1 = K - j := by omega
      have hle : 2 ^ (K - j) ≤ 2 ^ K := Nat.pow_le_pow_right (by omega) (by omega)
      have hdb : 2 * 2 ^ (K - j) = 2 ^ (K - j + 1) := by
        rw [Nat.pow_succ, Nat.mul_comm]
      have hdivm : 2 ^ K / 2 ^ (K - j) = 2 ^ j := by
        rw [Nat.pow_div (by omega) (by omega)]
        congr 1
        omega
      have hloop : virialReduceLoop (2 ^ K) (fuel + 1) (2 ^ (K - (j + 1) + 1)) sm (d * 2 ^ K)
          = virialReduceLoop (2 ^ K) fuel (2 ^ (K - j + 1))
              (virialReduceStep (2 ^ K) (2 ^ j) sm) (d * 2 ^ K) := by
        rw [hexp]
        show (if 2 ^ (K - j) ≤ 2 ^ K then
            virialReduceLoop (2 ^ K) fuel (2 * 2 ^ (K - j))
              (virialReduceStep (2 ^ K) (2 ^ K / 2 ^ (K - j)) sm)
          else sm) (d * 2 ^ K) = _
        rw [if_pos hle, hdb, hdivm]
      rw [hloop, ih (by omega) fuel (by omega),
          virialReduceStep_sum (2 ^ K) (2 ^ j) sm d hd (by rw [← Nat.pow_succ']; exact Nat.pow_le_pow_right (by omega) hjK)]
      congr 1
      rw [← Nat.pow_succ']

/-- For a power-of-two block size the full tree reduction leaves, at the
base of each component band, the sum of the whole band. -/
theorem virialReduce_sum (K d : ℕ) (hd : d < 6) (sm : ℕ → ℚ) :
    virialReduce (2 ^ K) sm (d * 2 ^ K)
      = ∑ t ∈ Finset.range (2 ^ K), sm (d * 2 ^ K + t) := by
  have h := virialReduceLoop_sum K d hd K (le_refl K) (2 ^ K)
    (Nat.le_of_lt (Nat.lt_two_pow K)) sm
  rw [Nat.sub_self] at h
  norm_num at h
  unfold virialReduce
  exact h

/-- The virial phase writes, into each of the six tensor slots, the old
value plus the block sum of the per-thread components. -/
theorem virialPhase_component (p : LincsParams) (s : KernelState) (lagrange : ℕ → ℚ)
    (K : ℕ) (hbs : p.numConstraintsThreads = 2 ^ K) (t : ℕ) (ht : t < 6)
    (htb : t < p.numConstraintsThreads) :
    virialPhase p s lagrange t
      = s.virialScaled t + ∑ c ∈ Finset.range p.numConstraintsThreads,
          virialComponent t (threadInit p s c) (lagrange c) := by
  unfold virialPhase
  rw [if_pos ⟨ht, htb⟩]
  congr 1
  have hsm : ∀ tib, tib < p.numConstraintsThreads →
      virialSmInit p s lagrange (t * p.numConstraintsThreads + tib)
        = virialComponent t (threadInit p s tib) (lagrange tib) := by
    intro tib htib
    have hpos : 0 < p.numConstraintsThreads := by omega
    have hdiv : (t * p.numConstraintsThreads + tib) / p.numConstraintsThreads = t := by
      rw [Nat.mul_comm t _, Nat.mul_add_div hpos, Nat.div_eq_of_lt htib, Nat.add_zero]
    have hmod : (t * p.numConstraintsThreads + tib) % p.numConstraintsThreads = tib := by
      rw [Nat.mul_comm t _, Nat.mul_add_mod, Nat.mod_eq_of_lt htib]
    unfold virialSmInit
    show (if (t * p.numConstraintsThreads + tib) / p.numConstraintsThreads < 6 then
        virialComponent ((t * p.numConstraintsThreads + tib) / p.numConstraintsThreads)
          (threadInit p s ((t * p.numConstraintsThreads + tib) % p.numConstraintsThreads))
          (lagrange ((t * p.numConstraintsThreads + tib) % p.numConstraintsThreads))
      else 0) = _
    rw [hdiv, hmod, if_pos ht]
  calc virialReduce p.numConstraintsThreads (virialSmInit p s lagrange)
        (t * p.numConstraintsThreads)
      = ∑ tib ∈ Finset.range p.numConstraintsThreads,
          virialSmInit p s lagrange (t * p.numConstraintsThreads + tib) := by
        rw [hbs]
        exact virialReduce_sum K t ht (virialSmInit p s lagrange)
    _ = ∑ c ∈ Finset.range p.numConstraintsThreads,
          virialComponent t (threadInit p s c) (lagrange c) := by
        refine Finset.sum_congr rfl ?_
        intro tib htib
        exact hsm tib (Finset.mem_range.mp htib)

/-- C7: with the virial requested, a kernel run adds (never overwrites)
into the caller's buffer exactly the six independent components of
`Σ_c r0_c * lagrangeTotal_c * (d_c ⊗ d_c)` in the order
`XX, XY, XZ, YY, YZ, ZZ`; that contribution tensor is symmetric; slots
beyond the six are untouched.  Holds for a power-of-two block size of at
least 6, as the tree reduction requires. -/
theorem lincs_virial_accumulation (uv hcb : Bool) (p : LincsParams) (s : KernelState)
    (K : ℕ) (hbs : p.numConstraintsThreads = 2 ^ K)
    (h6 : 6 ≤ p.numConstraintsThreads) :
    ((lincsKernel uv true hcb p s).virialScaled 0 = s.virialScaled 0
        + virialContributionTensor hcb p s 0 0)
    ∧ ((lincsKernel uv true hcb p s).virialScaled 1 = s.virialScaled 1
        + virialContributionTensor hcb p s 0 1)
    ∧ ((lincsKernel uv true hcb p s).virialScaled 2 = s.virialScaled 2
        + virialContributionTensor hcb p s 0 2)
    ∧ ((lincsKernel uv true hcb p s).virialScaled 3 = s.virialScaled 3
        + virialContributionTensor hcb p s 1 1)
    ∧ ((lincsKernel uv true hcb p s).virialScaled 4 = s.virialScaled 4
        + virialContributionTensor hcb p s 1 2)
    ∧ ((lincsKernel uv true hcb p s).virialScaled 5 = s.virialScaled 5
        + virialContributionTensor hcb p s 2 2)
    ∧ (∀ a b : Fin 3,
        virialContributionTensor hcb p s a b = virialContributionTensor hcb p s b a)
    ∧ (∀ t, 6 ≤ t →
        (lincsKernel uv true hcb p s).virialScaled t = s.virialScaled t) := by
  have hk : (lincsKernel uv true hcb p s).virialScaled
      = virialPhase p s (lagrangeTotal hcb p s) := rfl
  have hone : ∀ (t : ℕ) (a b : Fin 3), t < 6 →
      (∀ c, virialComponent t (threadInit p s c) (lagrangeTotal hcb p s c)
        = (threadInit p s c).targetLength * lagrangeTotal hcb p s c
            * ((threadInit p s c).rc a * (threadInit p s c).rc b)) →
      virialPhase p s (lagrangeTotal hcb p s) t
        = s.virialScaled t + virialContributionTensor hcb p s a b := by
    intro t a b ht hc
    rw [virialPhase_component p s _ K hbs t ht (lt_of_lt_of_le ht h6)]
    unfold virialContributionTensor
    congr 1
    refine Finset.sum_congr rfl ?_
    intro c _
    rw [hc c]
  refine ⟨?_, ?_, ?_, ?_, ?_, ?_, ?_, ?_⟩
  · rw [hk]
    exact hone 0 0 0 (by norm_num) (fun c => by simp [virialComponent]; ring)
  · rw [hk]
    exact hone 1 0 1 (by norm_num) (fun c => by simp [virialComponent]; ring)
  · rw [hk]
    exact hone 2 0 2 (by norm_num) (fun c => by simp [virialComponent]; ring)
  · rw [hk]
    exact hone 3 1 1 (by norm_num) (fun c => by simp [virialComponent]; ring)
  · rw [hk]
    exact hone 4 1 2 (by norm_num) (fun c => by simp [virialComponent]; ring)
  · rw [hk]
    exact hone 5 2 2 (by norm_num) (fun c => by simp [virialComponent]; ring)
  · intro a b
    unfold virialContributionTensor
    refine Finset.sum_congr rfl ?_
    intro c _
    ring
  · intro t ht
    rw [hk]
    unfold virialPhase
    rw [if_neg (fun h => absurd h.1 (not_lt.mpr ht))]

/-- Witness for C7 at the concrete coupled instance (block size 8 = 2³). -/
theorem lincs_virial_accumulation_witness :
    exParams.numConstraintsThreads = 2 ^ 3
    ∧ (lincsKernel true true true exParams exState).virialScaled 0
        = exState.virialScaled 0 + virialContributionTensor true exParams exState 0 0 :=
  ⟨by decide,
    (lincs_virial_accumulation true true exParams exState 3 (by decide) (by decide)).1⟩

/-! ## Disjoint constraints reduce to the naive single-pair solve -/

/-- When no other constraint touches the atoms of constraint `c`, the block
sum of correction deltas at atom `i` of `c` is `c`'s own contribution. -/
theorem sumDelta_at_i (p : LincsParams) (s : KernelState) (lam : ℕ → ℚ) (c : ℕ)
    (hcN : c < p.numConstraintsThreads) (hd : (s.constraints c).i ≠ -1)
    (hij : (s.constraints c).i.toNat ≠ (s.constraints c).j.toNat)
    (hdisj : ∀ c', c' < p.numConstraintsThreads → c' ≠ c → (s.constraints c').i ≠ -1 →
      (s.constraints c').i.toNat ≠ (s.constraints c).i.toNat
      ∧ (s.constraints c').j.toNat ≠ (s.constraints c).i.toNat
      ∧ (s.constraints c').i.toNat ≠ (s.constraints c).j.toNat
      ∧ (s.constraints c').j.toNat ≠ (s.constraints c).j.toNat) :
    ∑ c' ∈ Finset.range p.numConstraintsThreads,
        threadDelta (s.constraints c') (threadInit p s c') (lam c')
          (s.constraints c).i.toNat
      = -((threadInit p s c).inverseMassi • (lam c • (threadInit p s c).rc)) := by
  have hz : ∀ c' ∈ Finset.range p.numConstraintsThreads, c' ≠ c →
      threadDelta (s.constraints c') (threadInit p s c') (lam c')
        (s.constraints c).i.toNat = 0 := by
    intro c' hc' hne
    by_cases hd' : (s.constraints c').i = -1
    · simp [threadDelta, hd']
    · obtain ⟨d1, d2, _, _⟩ := hdisj c' (Finset.mem_range.mp hc') hne hd'
      unfold threadDelta
      rw [if_neg hd', if_neg (fun h => d1 h.symm), if_neg (fun h => d2 h.symm), add_zero]
  rw [Finset.sum_eq_single_of_mem c (Finset.mem_range.mpr hcN) hz]
  unfold threadDelta
  rw [if_neg hd, if_pos rfl, if_neg hij, add_zero]

/-- Same as `sumDelta_at_i` at atom `j` of `c`. -/
theorem sumDelta_at_j (p : LincsParams) (s : KernelState) (lam : ℕ → ℚ) (c : ℕ)
    (hcN : c < p.numConstraintsThreads) (hd : (s.constraints c).i ≠ -1)
    (hij : (s.constraints c).i.toNat ≠ (s.constraints c).j.toNat)
    (hdisj : ∀ c', c' < p.numConstraintsThreads → c' ≠ c → (s.constraints c').i ≠ -1 →
      (s.constraints c').i.toNat ≠ (s.constraints c).i.toNat
      ∧ (s.constraints c').j.toNat ≠ (s.constraints c).i.toNat
      ∧ (s.constraints c').i.toNat ≠ (s.constraints c).j.toNat
      ∧ (s.constraints c').j.toNat ≠ (s.constraints c).j.toNat) :
    ∑ c' ∈ Finset.range p.numConstraintsThreads,
        threadDelta (s.constraints c') (threadInit p s c') (lam c')
          (s.constraints c).j.toNat
      = (threadInit p s c).inverseMassj • (lam c • (threadInit p s c).rc) := by
  have hz : ∀ c' ∈ Finset.range p.numConstraintsThreads, c' ≠ c →
      threadDelta (s.constraints c') (threadInit p s c') (lam c')
        (s.constraints c).j.toNat = 0 := by
    intro c' hc' hne
    by_cases hd' : (s.constraints c').i = -1
    · simp [threadDelta, hd']
    · obtain ⟨_, _, d3, d4⟩ := hdisj c' (Finset.mem_range.mp hc') hne hd'
      unfold threadDelta
      rw [if_neg hd', if_neg (fun h => d3 h.symm), if_neg (fun h => d4 h.symm), add_zero]
  rw [Finset.sum_eq_single_of_mem c (Finset.mem_range.mpr hcN) hz]
  unfold threadDelta
  rw [if_neg hd, if_neg (fun h => hij h.symm), if_pos rfl, zero_add]

/-- The centripetal loop of the kernel without coupled constraints tracks
the naive single-pair solver on the atoms of an isolated constraint. -/
theorem centLoop_uncoupled_pair (p : LincsParams) (s : KernelState) (matA : ℕ → ℚ)
    (c : ℕ) (hcN : c < p.numConstraintsThreads) (hd : (s.constraints c).i ≠ -1)
    (hij : (s.constraints c).i.toNat ≠ (s.constraints c).j.toNat)
    (hdisj : ∀ c', c' < p.numConstraintsThreads → c' ≠ c → (s.constraints c').i ≠ -1 →
      (s.constraints c').i.toNat ≠ (s.constraints c).i.toNat
      ∧ (s.constraints c').j.toNat ≠ (s.constraints c).i.toNat
      ∧ (s.constraints c').i.toNat ≠ (s.constraints c).j.toNat
      ∧ (s.constraints c').j.toNat ≠ (s.constraints c).j.toNat)
    (tl imi imj smu : ℚ) (rc : V3)
    (htl : (threadInit p s c).targetLength = tl)
    (him : (threadInit p s c).inverseMassi = imi)
    (hjm : (threadInit p s c).inverseMassj = imj)
    (hsmu : (threadInit p s c).sqrtReducedMass = smu)
    (hrc : (threadInit p s c).rc = rc)
    (k : ℕ) (st : CentState) (nvst : PairState)
    (hxi : st.xp (s.constraints c).i.toNat = nvst.xpi)
    (hxj : st.xp (s.constraints c).j.toNat = nvst.xpj)
    (hlg : st.lagrange c = nvst.lagrange) :
    (centLoop false p s matA k st).xp (s.constraints c).i.toNat
        = (naivePairLoop p.rsqrt p.pbcDx tl imi imj smu rc k nvst).xpi
    ∧ (centLoop false p s matA k st).xp (s.constraints c).j.toNat
        = (naivePairLoop p.rsqrt p.pbcDx tl imi imj smu rc k nvst).xpj
    ∧ (centLoop false p s matA k st).lagrange c
        = (naivePairLoop p.rsqrt p.pbcDx tl imi imj smu rc k nvst).lagrange := by
  induction k with
  | zero => exact ⟨hxi, hxj, hlg⟩
  | succ k ih =>
    obtain ⟨h1, h2, h3⟩ := ih
    have hinc : centIncrement false p s matA (centLoop false p s matA k st) c
        = smu * centProj p.rsqrt smu tl
            (p.pbcDx (naivePairLoop p.rsqrt p.pbcDx tl imi imj smu rc k nvst).xpi
              (naivePairLoop p.rsqrt p.pbcDx tl imi imj smu rc k nvst).xpj) := by
      have hproj : centIterProjection p s (centLoop false p s matA k st).xp c
          = centProj p.rsqrt (threadInit p s c).sqrtReducedMass
              (threadInit p s c).targetLength
              (p.pbcDx ((centLoop false p s matA k st).xp (s.constraints c).i.toNat)
                ((centLoop false p s matA k st).xp (s.constraints c).j.toNat)) := by
        simp [centIterProjection, hd]
      show (threadInit p s c).sqrtReducedMass
          * centIterProjection p s (centLoop false p s matA k st).xp c = _
      rw [hproj, hsmu, htl, h1, h2]
    constructor
    · have hstep : (centLoop false p s matA (k + 1) st).xp (s.constraints c).i.toNat
          = applyAllCorrections p s
              (centIncrement false p s matA (centLoop false p s matA k st))
              (centLoop false p s matA k st).xp (s.constraints c).i.toNat := rfl
      rw [hstep, applyAllCorrections_apply,
          sumDelta_at_i p s _ c hcN hd hij hdisj, hinc, him, hrc, h1]
      show _ = (naivePairLoop p.rsqrt p.pbcDx tl imi imj smu rc k nvst).xpi
          - imi • ((smu * centProj p.rsqrt smu tl _) • rc)
      rw [sub_eq_add_neg]
    constructor
    · have hstep : (centLoop false p s matA (k + 1) st).xp (s.constraints c).j.toNat
          = applyAllCorrections p s
              (centIncrement false p s matA (centLoop false p s matA k st))
              (centLoop false p s matA k st).xp (s.constraints c).j.toNat := rfl
      rw [hstep, applyAllCorrections_apply,
          sumDelta_at_j p s _ c hcN hd hij hdisj, hinc, hjm, hrc, h2]
      rfl
    · have hstep : (centLoop false p s matA (k + 1) st).lagrange c
        = (centLoop false p s matA k st).lagrange c
          + centIncrement false p s matA (centLoop false p s matA k st) c := rfl
      rw [hstep, hinc, h3]
      rfl

/-- Zeta-expanded form of the naive single-pair solve. -/
theorem naiveSinglePairSolve_unfold (rsq : ℚ → ℚ) (pbc : V3 → V3 → V3)
    (tl imi imj : ℚ) (xi xj xpi0 xpj0 : V3) (numIter : ℕ) :
    naiveSinglePairSolve rsq pbc tl imi imj xi xj xpi0 xpj0 numIter
      = naivePairLoop rsq pbc tl imi imj (rsq (imi + imj))
          (rsq (V3.dot (pbc xi xj) (pbc xi xj)) • pbc xi xj) numIter
          { xpi := xpi0 - imi • ((rsq (imi + imj) * (rsq (imi + imj)
              * (V3.dot (rsq (V3.dot (pbc xi xj) (pbc xi xj)) • pbc xi xj)
                  (pbc xpi0 xpj0) - tl)))
              • (rsq (V3.dot (pbc xi xj) (pbc xi xj)) • pbc xi xj))
            xpj := xpj0 + imj • ((rsq (imi + imj) * (rsq (imi + imj)
              * (V3.dot (rsq (V3.dot (pbc xi xj) (pbc xi xj)) • pbc xi xj)
                  (pbc xpi0 xpj0) - tl)))
              • (rsq (V3.dot (pbc xi xj) (pbc xi xj)) • pbc xi xj))
            lagrange := rsq (imi + imj) * (rsq (imi + imj)
              * (V3.dot (rsq (V3.dot (pbc xi xj) (pbc xi xj)) • pbc xi xj)
                  (pbc xpi0 xpj0) - tl)) } := rfl

/-- C8: with `haveCoupledConstraints = false` the expansion loops are
skipped so `sol` is exactly the right-hand side `b = solInit`; and on a
topology of pairwise disjoint constraints the kernel's per-pair results —
both endpoint positions and the accumulated mass-scaled multiplier, for the
caller-fixed `expansionOrder` and `numIterations` budgets — coincide
exactly with the naive closed-form single-pair solve of that pair. -/
theorem lincs_uncoupled_single_pair (uv cv : Bool) (p : LincsParams) (s : KernelState)
    (c : ℕ) (hcN : c < p.numConstraintsThreads) (hd : (s.constraints c).i ≠ -1)
    (hij : (s.constraints c).i.toNat ≠ (s.constraints c).j.toNat)
    (hdisj : ∀ c', c' < p.numConstraintsThreads → c' ≠ c → (s.constraints c').i ≠ -1 →
      (s.constraints c').i.toNat ≠ (s.constraints c).i.toNat
      ∧ (s.constraints c').j.toNat ≠ (s.constraints c).i.toNat
      ∧ (s.constraints c').i.toNat ≠ (s.constraints c).j.toNat
      ∧ (s.constraints c').j.toNat ≠ (s.constraints c).j.toNat) :
    ((lincsInitialSol false p s).sol c = solInit p s c)
    ∧ ((lincsKernel uv cv false p s).xp (s.constraints c).i.toNat
        = (naiveSinglePairSolve p.rsqrt p.pbcDx (s.constraintsTargetLengths c)
            (s.inverseMasses (s.constraints c).i.toNat)
            (s.inverseMasses (s.constraints c).j.toNat)
            (s.x (s.constraints c).i.toNat) (s.x (s.constraints c).j.toNat)
            (s.xp (s.constraints c).i.toNat) (s.xp (s.constraints c).j.toNat)
            p.numIterations).xpi)
    ∧ ((lincsKernel uv cv false p s).xp (s.constraints c).j.toNat
        = (naiveSinglePairSolve p.rsqrt p.pbcDx (s.constraintsTargetLengths c)
            (s.inverseMasses (s.constraints c).i.toNat)
            (s.inverseMasses (s.constraints c).j.toNat)
            (s.x (s.constraints c).i.toNat) (s.x (s.constraints c).j.toNat)
            (s.xp (s.constraints c).i.toNat) (s.xp (s.constraints c).j.toNat)
            p.numIterations).xpj)
    ∧ (lagrangeTotal false p s c
        = (naiveSinglePairSolve p.rsqrt p.pbcDx (s.constraintsTargetLengths c)
            (s.inverseMasses (s.constraints c).i.toNat)
            (s.inverseMasses (s.constraints c).j.toNat)
            (s.x (s.constraints c).i.toNat) (s.x (s.constraints c).j.toNat)
            (s.xp (s.constraints c).i.toNat) (s.xp (s.constraints c).j.toNat)
            p.numIterations).lagrange) := by
  set xiS := s.x (s.constraints c).i.toNat with hxiS
  set xjS := s.x (s.constraints c).j.toNat with hxjS
  set xpiS := s.xp (s.constraints c).i.toNat with hxpiS
  set xpjS := s.xp (s.constraints c).j.toNat with hxpjS
  set tlS := s.constraintsTargetLengths c with htlS
  set imiS := s.inverseMasses (s.constraints c).i.toNat with himiS
  set imjS := s.inverseMasses (s.constraints c).j.toNat with himjS
  set dxS := p.pbcDx xiS xjS with hdxS
  set rcS := p.rsqrt (V3.dot dxS dxS) • dxS with hrcS
  set smuS := p.rsqrt (imiS + imjS) with hsmuS
  set lam0S := smuS * (smuS * (V3.dot rcS (p.pbcDx xpiS xpjS) - tlS)) with hlam0S
  have htl : (threadInit p s c).targetLength = tlS := by
    simp [threadInit, hd]
  have him : (threadInit p s c).inverseMassi = imiS := by
    simp [threadInit, hd]
  have hjm : (threadInit p s c).inverseMassj = imjS := by
    simp [threadInit, hd]
  have hsmu : (threadInit p s c).sqrtReducedMass = smuS := by
    simp [threadInit, hd, hsmuS, himiS, himjS]
  have hrc : (threadInit p s c).rc = rcS := by
    simp [threadInit, hd, hrcS, hdxS, hxiS, hxjS]
  have hsol : solInit p s c = smuS * (V3.dot rcS (p.pbcDx xpiS xpjS) - tlS) := by
    have h0 : solInit p s c
        = (threadInit p s c).sqrtReducedMass
          * (V3.dot (threadInit p s c).rc
              (p.pbcDx (s.xp (s.constraints c).i.toNat) (s.xp (s.constraints c).j.toNat))
            - (threadInit p s c).targetLength) := by
      simp [solInit, hd]
    rw [h0, hsmu, hrc, htl, ← hxpiS, ← hxpjS]
  have hlam0 : lagrangeInit false p s c = lam0S := by
    show (threadInit p s c).sqrtReducedMass * (lincsInitialSol false p s).sol c = lam0S
    have hsolc : (lincsInitialSol false p s).sol c = solInit p s c := rfl
    rw [hsolc, hsol, hsmu, hlam0S]
  have hst0i : applyAllCorrections p s (lagrangeInit false p s) s.xp
        (s.constraints c).i.toNat
      = xpiS - imiS • (lam0S • rcS) := by
    rw [applyAllCorrections_apply, sumDelta_at_i p s _ c hcN hd hij hdisj,
      him, hrc, hlam0, ← hxpiS, sub_eq_add_neg]
  have hst0j : applyAllCorrections p s (lagrangeInit false p s) s.xp
        (s.constraints c).j.toNat
      = xpjS + imjS • (lam0S • rcS) := by
    rw [applyAllCorrections_apply, sumDelta_at_j p s _ c hcN hd hij hdisj,
      hjm, hrc, hlam0, ← hxpjS]
  obtain ⟨e1, e2, e3⟩ := centLoop_uncoupled_pair p s s.matrixA c hcN hd hij hdisj
    tlS imiS imjS smuS rcS htl him hjm hsmu hrc p.numIterations
    { xp := applyAllCorrections p s (lagrangeInit false p s) s.xp
      lagrange := lagrangeInit false p s
      rhs := (lincsInitialSol false p s).rhs }
    { xpi := xpiS - imiS • (lam0S • rcS)
      xpj := xpjS + imjS • (lam0S • rcS)
      lagrange := lam0S }
    hst0i hst0j hlam0
  refine ⟨rfl, ?_, ?_, ?_⟩
  · rw [naiveSinglePairSolve_unfold]
    exact e1
  · rw [naiveSinglePairSolve_unfold]
    exact e2
  · rw [naiveSinglePairSolve_unfold]
    exact e3

/-- Witness for C8 at the concrete disjoint instance (constraint 0 of two
disjoint pairs). -/
theorem lincs_uncoupled_single_pair_witness :
    (exStateDisjoint.constraints 0).i ≠ -1
    ∧ (lincsKernel true true false exParamsDisjoint exStateDisjoint).xp
        (exStateDisjoint.constraints 0).i.toNat
      = (naiveSinglePairSolve exParamsDisjoint.rsqrt exParamsDisjoint.pbcDx
          (exStateDisjoint.constraintsTargetLengths 0)
          (exStateDisjoint.inverseMasses (exStateDisjoint.constraints 0).i.toNat)
          (exStateDisjoint.inverseMasses (exStateDisjoint.constraints 0).j.toNat)
          (exStateDisjoint.x (exStateDisjoint.constraints 0).i.toNat)
          (exStateDisjoint.x (exStateDisjoint.constraints 0).j.toNat)
          (exStateDisjoint.xp (exStateDisjoint.constraints 0).i.toNat)
          (exStateDisjoint.xp (exStateDisjoint.constraints 0).j.toNat)
          exParamsDisjoint.numIterations).xpi :=
  ⟨by decide,
    (lincs_uncoupled_single_pair true true exParamsDisjoint exStateDisjoint 0
      (by decide) (by decide) (by decide) (by decide)).2.1⟩

end Lincs
